import Mathlib

/-!
Verification of the XML structure scanner (`xml_structure.py`).

The program streams over an XML document's enter/exit element events and
accumulates a counting tree (`SchemaElement`): one node per distinct tag
position, with an occurrence count, an attribute-count dictionary and a
child dictionary keyed by full tag.  Two text renderings (overview and
detailed) present the finished tree.

Python dictionaries with deterministic insertion-order behaviour are
modelled as association lists (`List (String × α)`); dictionary update
(`d[k] = v`) replaces the first binding of `k` or appends a fresh one.
The event-folding loop's stack of aliased node references is modelled as
the root tree together with a stack of access paths (lists of full tags),
which is faithful because every stacked reference is a node on the path
from the root to the currently open element.
-/

namespace XmlVisi

/-! ### Definitions -/

/-- Association-list lookup: `d[k]` / `d.get(k)` on a Python dict. -/
def alookup {α : Type} : List (String × α) → String → Option α
  | [], _ => none
  | (k, v) :: rest, key => if k = key then some v else alookup rest key

/-- Association-list store: `d[k] = v` on a Python dict (replace the first
binding of the key, or append a fresh binding). -/
def aset {α : Type} : List (String × α) → String → α → List (String × α)
  | [], key, v => [(key, v)]
  | (k, w) :: rest, key, v =>
      if k = key then (k, v) :: rest else (k, w) :: aset rest key v

/-- One node of the counting tree, from `class SchemaElement`:
namespace alias, short tag, occurrence count, child map (full tag →
node), attribute map (attribute name → count). -/
inductive SchemaElement : Type where
  | mk (pfx shorttag : String) (count : Nat)
       (children : List (String × SchemaElement))
       (attrib : List (String × Nat))

def SchemaElement.pfx : SchemaElement → String
  | .mk p _ _ _ _ => p

def SchemaElement.shorttag : SchemaElement → String
  | .mk _ s _ _ _ => s

def SchemaElement.count : SchemaElement → Nat
  | .mk _ _ c _ _ => c

def SchemaElement.children : SchemaElement → List (String × SchemaElement)
  | .mk _ _ _ ch _ => ch

def SchemaElement.attrib : SchemaElement → List (String × Nat)
  | .mk _ _ _ _ ats => ats

/-- `self.attrib[k] = self.attrib.get(k, 0) + 1` for one attribute name. -/
def dincr (d : List (String × Nat)) (k : String) : List (String × Nat) :=
  aset d k ((alookup d k).getD 0 + 1)

/-- `SchemaElement.add_instance`: bump the occurrence count and each
attribute's count. -/
def SchemaElement.add_instance : SchemaElement → List String → SchemaElement
  | .mk p s c ch ats, attribNames => .mk p s (c + 1) ch (attribNames.foldl dincr ats)

/-- `SchemaElement.add_child`: find or create the child node for `tag`,
record one instance on it, and return the updated parent together with
the resulting child. -/
def SchemaElement.add_child (e : SchemaElement) (tag p st : String)
    (attribNames : List String) : SchemaElement × SchemaElement :=
  let child := match alookup e.children tag with
    | some c => c
    | none => SchemaElement.mk p st 0 [] []
  let child' := child.add_instance attribNames
  (SchemaElement.mk e.pfx e.shorttag e.count (aset e.children tag child') e.attrib,
   child')

/-- One parser event of `scan`'s loop (`start` / `end`).  Following the
spec's event-source interface, an `enter` event carries the full tag, the
resolved namespace alias and short name, and the instance's attribute
names; `exit` carries nothing. -/
inductive Event : Type where
  | enter (tag pfx shorttag : String) (attribNames : List String)
  | exit

/-- The scan loop's mutable state: the root tree plus the stack of open
nodes, each represented by its access path (list of full tags) from the
root.  The head of the list is the top of the stack (`stack[-1]`). -/
abbrev ScanState : Type := SchemaElement × List (List String)

/-- Node addressed by a path of full tags, following the child maps. -/
def nodeAt : SchemaElement → List String → Option SchemaElement
  | e, [] => some e
  | e, t :: p =>
      match alookup e.children t with
      | some c => nodeAt c p
      | none => none

/-- Perform `add_child` on the node addressed by `cur`, rebuilding the
tree along the path (the Python code mutates the node in place through
the reference held on the stack). -/
def addChildAt : SchemaElement → List String → String → String → String →
    List String → Option SchemaElement
  | e, [], tag, p, st, ats => some (e.add_child tag p st ats).1
  | e, seg :: path, tag, p, st, ats =>
      match alookup e.children seg with
      | some c =>
          match addChildAt c path tag p st ats with
          | some c' =>
              some (SchemaElement.mk e.pfx e.shorttag e.count
                      (aset e.children seg c') e.attrib)
          | none => none
      | none => none

/-- One iteration of `scan`'s event loop.  `none` models a fatal abort
(an `IndexError` from `stack[-1]` or `del stack[-1]` on an empty stack). -/
def scanStep (s : ScanState) (ev : Event) : Option ScanState :=
  match ev, s.2 with
  | _, [] => none
  | .enter tag p st ats, cur :: rest =>
      match addChildAt s.1 cur tag p st ats with
      | some tree' => some (tree', (cur ++ [tag]) :: cur :: rest)
      | none => none
  | .exit, _ :: rest => some (s.1, rest)

/-- The event-folding loop of `scan`. -/
def scanGo : List Event → ScanState → Option ScanState
  | [], s => some s
  | ev :: evs, s =>
      match scanStep s ev with
      | some s' => scanGo evs s'
      | none => none

/-- Initial state: `schema = SchemaElement('', '')`, `stack = [schema]`. -/
def initState : ScanState := (SchemaElement.mk "" "" 0 [] [], [[]])

/-- `scan`: fold all events, then `return schema.children.values()[0]`
(an `IndexError` — modelled as `none` — when the root has no children;
with several top-level children the first one is returned). -/
def scan (evs : List Event) : Option SchemaElement :=
  match scanGo evs initState with
  | some (tree, _) =>
      match tree.children with
      | [] => none
      | (_, c) :: _ => some c
  | none => none

/-- Occurrence count of the node at path `p` (0 when no such node). -/
def cnt (e : SchemaElement) (p : List String) : Nat :=
  match nodeAt e p with
  | some n => n.count
  | none => 0

/-- Count of attribute `a` on the node at path `p` (0 when absent). -/
def acnt (e : SchemaElement) (p : List String) (a : String) : Nat :=
  match nodeAt e p with
  | some n => (alookup n.attrib a).getD 0
  | none => 0

/-- Ground truth for claim C2: the number of `enter` events that occur at
tree position `p`, tracking the same stack of open paths as the scan
(head = current position). -/
def enterCount : List Event → List (List String) → List String → Nat
  | [], _, _ => 0
  | _ :: _, [], _ => 0
  | .enter t _ _ _ :: evs, cur :: rest, p =>
      (if cur ++ [t] = p then 1 else 0) + enterCount evs ((cur ++ [t]) :: cur :: rest) p
  | .exit :: evs, _ :: rest, p => enterCount evs rest p

/-- Ground truth for claim C3: the number of `enter` events at tree
position `p` whose instance carries attribute `a`. -/
def attrEnterCount : List Event → List (List String) → List String → String → Nat
  | [], _, _, _ => 0
  | _ :: _, [], _, _ => 0
  | .enter t _ _ ats :: evs, cur :: rest, p, a =>
      (if cur ++ [t] = p ∧ a ∈ ats then 1 else 0) +
        attrEnterCount evs ((cur ++ [t]) :: cur :: rest) p a
  | .exit :: evs, _ :: rest, p, a => attrEnterCount evs rest p a

/-- Well-nestedness of an event sequence, tracked by nesting depth:
every `exit` matches an open `enter` and the sequence ends at depth 0. -/
def bal : List Event → Nat → Bool
  | [], d => d == 0
  | .enter _ _ _ _ :: evs, d => bal evs (d + 1)
  | .exit :: evs, d => decide (0 < d) && bal evs (d - 1)

/-- Number of `enter` events in a sequence. -/
def countEnters : List Event → Nat
  | [] => 0
  | .enter _ _ _ _ :: evs => countEnters evs + 1
  | .exit :: evs => countEnters evs

/-- Number of `exit` events in a sequence. -/
def countExits : List Event → Nat
  | [] => 0
  | .enter _ _ _ _ :: evs => countExits evs
  | .exit :: evs => countExits evs + 1

/-- Python's `a.startswith(b)`. -/
def strStartsWith (a b : String) : Bool := b.toList.isPrefixOf a.toList

/-- Python's `a[n:]` (drop the first `n` characters). -/
def strDrop (a : String) (n : Nat) : String := String.mk (a.toList.drop n)

/-- Tag identity resolution, from the head of `scan`'s event loop:
`ns = '{%s}' % element.nsmap[prefix]` (empty on `KeyError`), then
`assert tag.startswith(ns)` (fatal abort modelled as `none`), then
`shorttag = tag[len(ns):]`. -/
def resolveTag (tag pfxName : String) (nsmap : List (String × String)) :
    Option (String × String) :=
  let ns : String := match alookup nsmap pfxName with
    | some uri => "\x7b" ++ uri ++ "\x7d"
    | none => ""
  if strStartsWith tag ns then some (pfxName, strDrop tag ns.length) else none

/-- `' ' * n`. -/
def spaces (n : Nat) : String := String.mk (List.replicate n ' ')

/-- `sorted(d.keys())`: the keys of a dict, sorted lexicographically. -/
def sortedKeys {α : Type} (l : List (String × α)) : List String :=
  List.insertionSort (fun a b => a ≤ b) (l.map Prod.fst)

/-- `''.join` of the accumulated fragment list. -/
def sconcat : List String → String
  | [] => ""
  | s :: r => s ++ sconcat r

/-- The fragment list built by `SchemaElement.pformat`'s inner `recurse`:
indentation, optional `prefix:`, short tag, `{count}`, optionally the
attribute block (when `attribs` is set and the node has attributes),
then the children in sorted order of their full tag. -/
def pieces (ab : Bool) : SchemaElement → Nat → List String
  | .mk p s c ch ats, indent =>
      let rendered := ch.attach.map fun x => (x.1.1, pieces ab x.1.2 (indent + 2))
      [spaces indent] ++
      (if p = "" then [] else [p, ":"]) ++
      [s, "\x7b", toString c, "\x7d"] ++
      (if ab && !ats.isEmpty then
        [" ("] ++
        ((sortedKeys ats).flatMap fun a =>
          ["\n", spaces (indent + 1), a, "\x7b", toString ((alookup ats a).getD 0), "\x7d"]) ++
        ["\n", spaces indent, "):\n"]
      else [":\n"]) ++
      ((sortedKeys ch).flatMap fun k => (alookup rendered k).getD [])
termination_by e _ => sizeOf e
decreasing_by
  have h1 := List.sizeOf_lt_of_mem x.2
  simp only [Prod.mk.sizeOf_spec] at h1
  simp only [SchemaElement.mk.sizeOf_spec]
  obtain ⟨⟨xk, xe⟩, hx⟩ := x
  simp only [Prod.mk.sizeOf_spec] at h1 ⊢
  omega

/-- `SchemaElement.pformat`: join the fragments, starting at indent 0. -/
def pformat (ab : Bool) (e : SchemaElement) : String := sconcat (pieces ab e 0)

/-- Modelled from the claim's words: the single overview line for a node
at a given depth — `2*depth` spaces, then (only when the node's prefix
is non-empty) the prefix and `:`, then the short name, `{`, the decimal
count, `}` and a trailing `:`. -/
def overviewLine (e : SchemaElement) (depth : Nat) : String :=
  spaces (2 * depth) ++
  (if e.pfx = "" then "" else e.pfx ++ ":") ++
  e.shorttag ++ "\x7b" ++ toString e.count ++ "\x7d" ++ ":"

/-- Modelled from the claim's words: depth-first list of overview lines,
one per node, children visited in lexicographic order of full tag. -/
def overviewLines : SchemaElement → Nat → List String
  | .mk p s c ch ats, depth =>
      let rendered := ch.attach.map fun x => (x.1.1, overviewLines x.1.2 (depth + 1))
      overviewLine (.mk p s c ch ats) depth ::
      ((sortedKeys ch).flatMap fun k => (alookup rendered k).getD [])
termination_by e _ => sizeOf e
decreasing_by
  have h1 := List.sizeOf_lt_of_mem x.2
  simp only [Prod.mk.sizeOf_spec] at h1
  simp only [SchemaElement.mk.sizeOf_spec]
  obtain ⟨⟨xk, xe⟩, hx⟩ := x
  simp only [Prod.mk.sizeOf_spec] at h1 ⊢
  omega

/-- Canonical form of a tree: every dictionary sorted by key.  Two trees
are "equal as trees" (same maps, regardless of insertion order) exactly
when their canonical forms coincide. -/
def canon : SchemaElement → SchemaElement
  | .mk p s c ch ats =>
      .mk p s c
        (List.insertionSort (fun a b => a.1 ≤ b.1)
          (ch.attach.map fun x => (x.1.1, canon x.1.2)))
        (List.insertionSort (fun a b => a.1 ≤ b.1) ats)
termination_by e => sizeOf e
decreasing_by
  have h1 := List.sizeOf_lt_of_mem x.2
  simp only [Prod.mk.sizeOf_spec] at h1
  simp only [SchemaElement.mk.sizeOf_spec]
  obtain ⟨⟨xk, xe⟩, hx⟩ := x
  simp only [Prod.mk.sizeOf_spec] at h1 ⊢
  omega

/-- Dictionary well-formedness, true of every tree the program builds:
all child maps and attribute maps have distinct keys, recursively. -/
def wfB : SchemaElement → Bool
  | .mk _ _ _ ch ats =>
      decide ((ats.map Prod.fst).Nodup) && decide ((ch.map Prod.fst).Nodup) &&
      (ch.attach.all fun x => wfB x.1.2)
termination_by e => sizeOf e
decreasing_by
  have h1 := List.sizeOf_lt_of_mem x.2
  simp only [Prod.mk.sizeOf_spec] at h1
  simp only [SchemaElement.mk.sizeOf_spec]
  obtain ⟨⟨xk, xe⟩, hx⟩ := x
  simp only [Prod.mk.sizeOf_spec] at h1 ⊢
  omega

/-! ### Association-list lemmas -/

theorem alookup_aset {α : Type} (l : List (String × α)) (k k' : String) (v : α) :
    alookup (aset l k v) k' = if k = k' then some v else alookup l k' := by
  induction l with
  | nil => by_cases h : k = k' <;> simp [aset, alookup, h]
  | cons x rest ih =>
    obtain ⟨kx, vx⟩ := x
    by_cases hx : kx = k
    · subst hx
      by_cases h : kx = k' <;> simp [aset, alookup, h]
    · by_cases h : kx = k'
      · have hk : k ≠ k' := fun hkk => hx (h.trans hkk.symm)
        simp [aset, alookup, hx, h, hk, Ne.symm hk]
      · simp [aset, alookup, hx, h, ih]

theorem alookup_aset_self {α : Type} (l : List (String × α)) (k : String) (v : α) :
    alookup (aset l k v) k = some v := by
  simp [alookup_aset]

theorem alookup_aset_ne {α : Type} (l : List (String × α)) (k k' : String) (v : α)
    (h : k ≠ k') : alookup (aset l k v) k' = alookup l k' := by
  simp [alookup_aset, h]

theorem aset_keys_of_alookup_some {α : Type} (l : List (String × α)) (k : String)
    (v : α) (h : (alookup l k).isSome) :
    (aset l k v).map Prod.fst = l.map Prod.fst := by
  induction l with
  | nil => simp [alookup] at h
  | cons x rest ih =>
    obtain ⟨kx, vx⟩ := x
    by_cases hx : kx = k
    · simp [aset, hx]
    · simp only [alookup, hx, if_false] at h
      simp [aset, hx, ih h]

theorem aset_keys_of_alookup_none {α : Type} (l : List (String × α)) (k : String)
    (v : α) (h : alookup l k = none) :
    (aset l k v).map Prod.fst = l.map Prod.fst ++ [k] := by
  induction l with
  | nil => simp [aset]
  | cons x rest ih =>
    obtain ⟨kx, vx⟩ := x
    by_cases hx : kx = k
    · simp [alookup, hx] at h
    · simp only [alookup, hx, if_false] at h
      simp [aset, hx, ih h]

/-! ### Field lemmas for the node operations -/

@[simp] theorem pfx_mk (p s : String) (c : Nat) (ch) (ats) :
    (SchemaElement.mk p s c ch ats).pfx = p := rfl

@[simp] theorem shorttag_mk (p s : String) (c : Nat) (ch) (ats) :
    (SchemaElement.mk p s c ch ats).shorttag = s := rfl

@[simp] theorem count_mk (p s : String) (c : Nat) (ch) (ats) :
    (SchemaElement.mk p s c ch ats).count = c := rfl

@[simp] theorem children_mk (p s : String) (c : Nat) (ch) (ats) :
    (SchemaElement.mk p s c ch ats).children = ch := rfl

@[simp] theorem attrib_mk (p s : String) (c : Nat) (ch) (ats) :
    (SchemaElement.mk p s c ch ats).attrib = ats := rfl

@[simp] theorem add_instance_pfx (e : SchemaElement) (ats : List String) :
    (e.add_instance ats).pfx = e.pfx := by
  cases e
  rfl

@[simp] theorem add_instance_shorttag (e : SchemaElement) (ats : List String) :
    (e.add_instance ats).shorttag = e.shorttag := by
  cases e
  rfl

@[simp] theorem add_instance_count (e : SchemaElement) (ats : List String) :
    (e.add_instance ats).count = e.count + 1 := by
  cases e
  rfl

@[simp] theorem add_instance_children (e : SchemaElement) (ats : List String) :
    (e.add_instance ats).children = e.children := by
  cases e
  rfl

@[simp] theorem add_instance_attrib (e : SchemaElement) (ats : List String) :
    (e.add_instance ats).attrib = ats.foldl dincr e.attrib := by
  cases e
  rfl

theorem add_child_parent (e : SchemaElement) (tag p st : String) (ats : List String) :
    (e.add_child tag p st ats).1 =
      SchemaElement.mk e.pfx e.shorttag e.count
        (aset e.children tag ((e.add_child tag p st ats).2)) e.attrib := by
  simp [SchemaElement.add_child]

theorem add_child_child_of_some (e : SchemaElement) (tag p st : String)
    (ats : List String) (c : SchemaElement) (h : alookup e.children tag = some c) :
    (e.add_child tag p st ats).2 = c.add_instance ats := by
  simp [SchemaElement.add_child, h]

theorem add_child_child_of_none (e : SchemaElement) (tag p st : String)
    (ats : List String) (h : alookup e.children tag = none) :
    (e.add_child tag p st ats).2 = (SchemaElement.mk p st 0 [] []).add_instance ats := by
  simp [SchemaElement.add_child, h]

/-- C4: `add_child` is structurally idempotent — a present tag creates no
new node (the key list is unchanged and the existing child is reused), an
absent tag appends exactly one new node, and in all cases the returned
child is the found-or-created node with `add_instance` applied, stored
under the given tag. -/
theorem add_child_structural_idempotence (e : SchemaElement)
    (tag p st : String) (ats : List String) :
    ((e.add_child tag p st ats).1.children.map Prod.fst =
        if (alookup e.children tag).isSome then e.children.map Prod.fst
        else e.children.map Prod.fst ++ [tag]) ∧
    (∀ c, alookup e.children tag = some c →
        (e.add_child tag p st ats).2 = c.add_instance ats) ∧
    (alookup e.children tag = none →
        (e.add_child tag p st ats).2 =
          (SchemaElement.mk p st 0 [] []).add_instance ats) ∧
    alookup (e.add_child tag p st ats).1.children tag = some (e.add_child tag p st ats).2 := by
  refine ⟨?_, ?_, ?_, ?_⟩
  · cases h : alookup e.children tag with
    | some c =>
      rw [add_child_parent]
      simp only [children_mk]
      rw [aset_keys_of_alookup_some e.children tag ((e.add_child tag p st ats).2)
            (by simp [h])]
      simp [h]
    | none =>
      rw [add_child_parent]
      simp only [children_mk]
      rw [aset_keys_of_alookup_none e.children tag ((e.add_child tag p st ats).2) h]
      simp [h]
  · exact fun c h => add_child_child_of_some e tag p st ats c h
  · exact fun h => add_child_child_of_none e tag p st ats h
  · rw [add_child_parent]
    simp [alookup_aset_self]

/-- Concrete instantiation of C4's theorem: with tag `"a"` already
present, the lookup hypothesis is discharged and the existing child is
reused. -/
theorem add_child_structural_idempotence_witness :
    ((SchemaElement.mk "" "r" 1 [("a", SchemaElement.mk "" "a" 1 [] [])] []).add_child
        "a" "" "a" ["x"]).2 =
      (SchemaElement.mk "" "a" 1 [] []).add_instance ["x"] :=
  (add_child_structural_idempotence
      (SchemaElement.mk "" "r" 1 [("a", SchemaElement.mk "" "a" 1 [] [])] [])
      "a" "" "a" ["x"]).2.1 (SchemaElement.mk "" "a" 1 [] []) rfl

/-- C9: frame condition of `add_child` — the parent's own count,
attribute map, prefix and short tag are untouched, and every child entry
for a different tag is unchanged. -/
theorem add_child_frame (e : SchemaElement) (tag p st : String) (ats : List String) :
    (e.add_child tag p st ats).1.count = e.count ∧
    (e.add_child tag p st ats).1.attrib = e.attrib ∧
    (e.add_child tag p st ats).1.pfx = e.pfx ∧
    (e.add_child tag p st ats).1.shorttag = e.shorttag ∧
    ∀ t', t' ≠ tag →
      alookup (e.add_child tag p st ats).1.children t' = alookup e.children t' := by
  rw [add_child_parent]
  refine ⟨rfl, rfl, rfl, rfl, fun t' h => ?_⟩
  simp only [children_mk]
  exact alookup_aset_ne _ _ _ _ (fun hh => h hh.symm)

/-- Concrete instantiation of C9's theorem: adding under tag `"a"` leaves
the sibling entry `"b"` unchanged. -/
theorem add_child_frame_witness :
    alookup ((SchemaElement.mk "" "r" 1 [("b", SchemaElement.mk "" "b" 2 [] [])] []).add_child
        "a" "" "a" []).1.children "b" =
      alookup [("b", SchemaElement.mk "" "b" 2 [] [])] "b" :=
  (add_child_frame (SchemaElement.mk "" "r" 1 [("b", SchemaElement.mk "" "b" 2 [] [])] [])
      "a" "" "a" []).2.2.2.2 "b" (by decide)

/-- C10: a node's prefix and short name are frozen at creation — calling
`add_child` for an existing tag with different prefix/short-name
arguments returns the existing child with its original prefix and short
name; the new arguments are ignored. -/
theorem add_child_identity_frozen (e : SchemaElement) (tag p' st' : String)
    (ats : List String) (c : SchemaElement) (h : alookup e.children tag = some c) :
    (e.add_child tag p' st' ats).2.pfx = c.pfx ∧
    (e.add_child tag p' st' ats).2.shorttag = c.shorttag := by
  rw [add_child_child_of_some e tag p' st' ats c h]
  exact ⟨add_instance_pfx c ats, add_instance_shorttag c ats⟩

/-- Concrete instantiation of C10's theorem: re-adding tag `"a"` with a
different prefix and short name keeps the original identity. -/
theorem add_child_identity_frozen_witness :
    ((SchemaElement.mk "" "r" 1 [("a", SchemaElement.mk "ns" "a" 1 [] [])] []).add_child
        "a" "other" "zzz" []).2.pfx = "ns" :=
  ((add_child_identity_frozen
      (SchemaElement.mk "" "r" 1 [("a", SchemaElement.mk "ns" "a" 1 [] [])] [])
      "a" "other" "zzz" [] (SchemaElement.mk "ns" "a" 1 [] []) rfl).1).trans rfl

/-! ### Path-indexed count lemmas -/

theorem cnt_nil (e : SchemaElement) : cnt e [] = e.count := rfl

theorem cnt_cons_some (e c : SchemaElement) (t : String) (r : List String)
    (h : alookup e.children t = some c) : cnt e (t :: r) = cnt c r := by
  simp [cnt, nodeAt, h]

theorem cnt_cons_none (e : SchemaElement) (t : String) (r : List String)
    (h : alookup e.children t = none) : cnt e (t :: r) = 0 := by
  simp [cnt, nodeAt, h]

theorem cnt_add_instance_cons (e : SchemaElement) (ats : List String) (x : String)
    (r : List String) : cnt (e.add_instance ats) (x :: r) = cnt e (x :: r) := by
  cases h : alookup e.children x with
  | some c =>
    rw [cnt_cons_some (e.add_instance ats) c x r (by rw [add_instance_children]; exact h),
        cnt_cons_some e c x r h]
  | none =>
    rw [cnt_cons_none (e.add_instance ats) x r (by rw [add_instance_children]; exact h),
        cnt_cons_none e x r h]

theorem cnt_cons_eq_of_alookup_eq (e e' : SchemaElement) (t : String) (r : List String)
    (h : alookup e'.children t = alookup e.children t) :
    cnt e' (t :: r) = cnt e (t :: r) := by
  cases hl : alookup e.children t with
  | some c => rw [cnt_cons_some e' c t r (h.trans hl), cnt_cons_some e c t r hl]
  | none => rw [cnt_cons_none e' t r (h.trans hl), cnt_cons_none e t r hl]

/-- Effect of one `add_child` performed at path `cur`: the count of the
entered child's position goes up by one and every other position is
untouched. -/
theorem addChildAt_cnt :
    ∀ (cur : List String) (tree tree' : SchemaElement) (tag p st : String)
      (ats : List String),
      addChildAt tree cur tag p st ats = some tree' →
      ∀ q, cnt tree' q = cnt tree q + (if cur ++ [tag] = q then 1 else 0) := by
  intro cur
  induction cur with
  | nil =>
    intro tree tree' tag p st ats h q
    simp only [addChildAt, Option.some.injEq] at h
    subst h
    rw [add_child_parent]
    cases q with
    | nil => simp [cnt_nil]
    | cons t' r =>
      by_cases ht : tag = t'
      · subst ht
        rw [cnt_cons_some _ ((tree.add_child tag p st ats).2) tag r
              (by simp [alookup_aset_self])]
        cases hc : alookup tree.children tag with
        | some c =>
          rw [add_child_child_of_some tree tag p st ats c hc]
          rw [cnt_cons_some tree c tag r hc]
          cases r with
          | nil => simp [cnt_nil]
          | cons x r2 => simp [cnt_add_instance_cons]
        | none =>
          rw [add_child_child_of_none tree tag p st ats hc]
          rw [cnt_cons_none tree tag r hc]
          cases r with
          | nil => simp [cnt_nil]
          | cons x r2 =>
            rw [cnt_cons_none _ x r2 (by simp [alookup])]
            simp
      · rw [cnt_cons_eq_of_alookup_eq _ _ t' r
              (by simp only [children_mk]; exact alookup_aset_ne _ _ _ _ ht)]
        have : ¬ ([tag] = t' :: r) := by simp [ht]
        simp [this]
  | cons seg path ih =>
    intro tree tree' tag p st ats h q
    cases hc : alookup tree.children seg with
    | none =>
      simp only [addChildAt, hc] at h
      exact Option.noConfusion h
    | some c =>
      cases hr : addChildAt c path tag p st ats with
      | none =>
        simp only [addChildAt, hc, hr] at h
        exact Option.noConfusion h
      | some c' =>
        simp only [addChildAt, hc, hr, Option.some.injEq] at h
        subst h
        cases q with
        | nil => simp [cnt_nil]
        | cons t' r =>
          by_cases ht : seg = t'
          · subst ht
            rw [cnt_cons_some _ c' seg r (by simp [alookup_aset_self])]
            rw [cnt_cons_some tree c seg r hc]
            rw [ih c c' tag p st ats hr r]
            simp
          · rw [cnt_cons_eq_of_alookup_eq _ _ t' r
                  (by simp only [children_mk]; exact alookup_aset_ne _ _ _ _ ht)]
            have : ¬ (seg :: path ++ [tag] = t' :: r) := by
              simp [ht]
            simp only [this, if_false]
            simp [ht]

/-- The whole event fold: final counts are the initial counts plus the
number of `enter` events folded in at each position. -/
theorem scanGo_cnt :
    ∀ (evs : List Event) (tree : SchemaElement) (stk : List (List String))
      (tree' : SchemaElement) (stk' : List (List String)),
      scanGo evs (tree, stk) = some (tree', stk') →
      ∀ q, cnt tree' q = cnt tree q + enterCount evs stk q := by
  intro evs
  induction evs with
  | nil =>
    intro tree stk tree' stk' h q
    simp only [scanGo, Option.some.injEq, Prod.mk.injEq] at h
    rw [← h.1]
    simp [enterCount]
  | cons ev evs ih =>
    intro tree stk tree' stk' h q
    cases stk with
    | nil =>
      cases ev <;> simp [scanGo, scanStep] at h
    | cons cur rest =>
      cases ev with
      | enter t p st ats =>
        cases ha : addChildAt tree cur t p st ats with
        | none =>
          simp only [scanGo, scanStep, ha] at h
          exact Option.noConfusion h
        | some tree1 =>
          simp only [scanGo, scanStep, ha] at h
          have h1 := ih tree1 ((cur ++ [t]) :: cur :: rest) tree' stk' h q
          have h2 := addChildAt_cnt cur tree tree1 t p st ats ha q
          rw [h1, h2]
          simp only [enterCount]
          omega
      | exit =>
        simp only [scanGo, scanStep] at h
        have h1 := ih tree rest tree' stk' h q
        rw [h1]
        simp [enterCount]

/-- An `add_child` update along a valid path always succeeds. -/
theorem addChildAt_isSome :
    ∀ (cur : List String) (tree : SchemaElement) (tag p st : String)
      (ats : List String), (nodeAt tree cur).isSome →
      (addChildAt tree cur tag p st ats).isSome := by
  intro cur
  induction cur with
  | nil => intro tree tag p st ats _; simp [addChildAt]
  | cons seg path ih =>
    intro tree tag p st ats h
    cases hc : alookup tree.children seg with
    | none => simp [nodeAt, hc] at h
    | some c =>
      simp only [nodeAt, hc] at h
      have := ih c tag p st ats h
      cases hr : addChildAt c path tag p st ats with
      | none => rw [hr] at this; simp at this
      | some c' => simp [addChildAt, hc, hr]

/-- `add_child` along a path preserves the existence of every node. -/
theorem addChildAt_preserves :
    ∀ (cur : List String) (tree tree' : SchemaElement) (tag p st : String)
      (ats : List String) (q : List String),
      addChildAt tree cur tag p st ats = some tree' →
      (nodeAt tree q).isSome → (nodeAt tree' q).isSome := by
  intro cur
  induction cur with
  | nil =>
    intro tree tree' tag p st ats q h hq
    simp only [addChildAt, Option.some.injEq] at h
    subst h
    rw [add_child_parent]
    cases q with
    | nil => simp [nodeAt]
    | cons t' r =>
      by_cases ht : tag = t'
      · subst ht
        cases hc : alookup tree.children tag with
        | none => simp [nodeAt, hc] at hq
        | some c =>
          simp only [nodeAt, hc] at hq
          simp only [nodeAt, children_mk, alookup_aset_self]
          rw [add_child_child_of_some tree tag p st ats c hc]
          cases r with
          | nil => simp [nodeAt]
          | cons x r2 =>
            simp only [nodeAt, add_instance_children]
            cases hl : alookup c.children x with
            | none => simp [nodeAt, hl] at hq
            | some d => simp only [nodeAt, hl] at hq ⊢; exact hq
      · simp only [nodeAt, children_mk, alookup_aset_ne _ _ _ _ ht]
        cases hl : alookup tree.children t' with
        | none => simp [nodeAt, hl] at hq
        | some d => simp only [nodeAt, hl] at hq ⊢; exact hq
  | cons seg path ih =>
    intro tree tree' tag p st ats q h hq
    cases hc : alookup tree.children seg with
    | none =>
      simp only [addChildAt, hc] at h
      exact Option.noConfusion h
    | some c =>
      cases hr : addChildAt c path tag p st ats with
      | none =>
        simp only [addChildAt, hc, hr] at h
        exact Option.noConfusion h
      | some c' =>
        simp only [addChildAt, hc, hr, Option.some.injEq] at h
        subst h
        cases q with
        | nil => simp [nodeAt]
        | cons t' r =>
          by_cases ht : seg = t'
          · subst ht
            simp only [nodeAt, children_mk, alookup_aset_self]
            simp only [nodeAt, hc] at hq
            exact ih c c' tag p st ats r hr hq
          · simp only [nodeAt, children_mk, alookup_aset_ne _ _ _ _ ht]
            cases hl : alookup tree.children t' with
            | none => simp [nodeAt, hl] at hq
            | some d => simp only [nodeAt, hl] at hq ⊢; exact hq

/-- `add_child` along a path creates (or keeps) the entered node. -/
theorem addChildAt_creates :
    ∀ (cur : List String) (tree tree' : SchemaElement) (tag p st : String)
      (ats : List String),
      addChildAt tree cur tag p st ats = some tree' →
      (nodeAt tree' (cur ++ [tag])).isSome := by
  intro cur
  induction cur with
  | nil =>
    intro tree tree' tag p st ats h
    simp only [addChildAt, Option.some.injEq] at h
    subst h
    rw [add_child_parent]
    simp [nodeAt, children_mk, alookup_aset_self]
  | cons seg path ih =>
    intro tree tree' tag p st ats h
    cases hc : alookup tree.children seg with
    | none =>
      simp only [addChildAt, hc] at h
      exact Option.noConfusion h
    | some c =>
      cases hr : addChildAt c path tag p st ats with
      | none =>
        simp only [addChildAt, hc, hr] at h
        exact Option.noConfusion h
      | some c' =>
        simp only [addChildAt, hc, hr, Option.some.injEq] at h
        subst h
        simp only [List.cons_append, nodeAt, children_mk, alookup_aset_self]
        exact ih c c' tag p st ats hr

/-- On a well-nested suffix starting `d` levels deep, the fold always
succeeds and pops exactly the `d` innermost open nodes. -/
theorem scanGo_total :
    ∀ (evs : List Event) (d : Nat) (tree : SchemaElement) (stk : List (List String)),
      bal evs d = true → d + 1 ≤ stk.length →
      (∀ q ∈ stk, (nodeAt tree q).isSome) →
      ∃ tree', scanGo evs (tree, stk) = some (tree', stk.drop d) := by
  intro evs
  induction evs with
  | nil =>
    intro d tree stk hb _ _
    simp only [bal, beq_iff_eq] at hb
    subst hb
    exact ⟨tree, by simp [scanGo]⟩
  | cons ev evs ih =>
    intro d tree stk hb hlen hval
    cases ev with
    | enter t p st ats =>
      simp only [bal] at hb
      cases stk with
      | nil => simp at hlen
      | cons cur rest =>
        have hcur : (nodeAt tree cur).isSome := hval cur (by simp)
        cases ha : addChildAt tree cur t p st ats with
        | none =>
          have := addChildAt_isSome cur tree t p st ats hcur
          rw [ha] at this
          simp at this
        | some tree1 =>
          have hval1 : ∀ q ∈ (cur ++ [t]) :: cur :: rest, (nodeAt tree1 q).isSome := by
            intro q hq
            rcases List.mem_cons.1 hq with hq1 | hq2
            · subst hq1
              exact addChildAt_creates cur tree tree1 t p st ats ha
            · exact addChildAt_preserves cur tree tree1 t p st ats q ha (hval q hq2)
          have hlen1 : (d + 1) + 1 ≤ ((cur ++ [t]) :: cur :: rest).length := by
            simp only [List.length_cons]
            simp only [List.length_cons] at hlen
            omega
          obtain ⟨tree', htree'⟩ := ih (d + 1) tree1 ((cur ++ [t]) :: cur :: rest) hb hlen1 hval1
          refine ⟨tree', ?_⟩
          simp only [scanGo, scanStep, ha]
          rw [htree']
          simp
    | exit =>
      simp only [bal, Bool.and_eq_true, decide_eq_true_eq] at hb
      obtain ⟨hd, hb⟩ := hb
      cases stk with
      | nil => simp at hlen
      | cons cur rest =>
        have hlen1 : (d - 1) + 1 ≤ rest.length := by
          simp only [List.length_cons] at hlen
          omega
        have hval1 : ∀ q ∈ rest, (nodeAt tree q).isSome := fun q hq =>
          hval q (List.mem_cons_of_mem cur hq)
        obtain ⟨tree', htree'⟩ := ih (d - 1) tree rest hb hlen1 hval1
        refine ⟨tree', ?_⟩
        simp only [scanGo, scanStep]
        rw [htree']
        have : (cur :: rest).drop d = rest.drop (d - 1) := by
          cases d with
          | zero => omega
          | succ d0 => simp
        rw [this]

theorem cnt_init (q : List String) : cnt (SchemaElement.mk "" "" 0 [] []) q = 0 := by
  cases q with
  | nil => rfl
  | cons t r => exact cnt_cons_none _ t r rfl

theorem initStack_valid :
    ∀ q ∈ ([[]] : List (List String)),
      (nodeAt (SchemaElement.mk "" "" 0 [] []) q).isSome := by
  intro q hq
  simp only [List.mem_singleton] at hq
  subst hq
  simp [nodeAt]

/-- C2: for a well-nested event sequence the fold succeeds, and the
occurrence count of every node of the resulting tree equals the number
of `enter` events at that node's tree position. -/
theorem scan_occurrence_counts (evs : List Event) (h : bal evs 0 = true) :
    ∃ tree, scanGo evs initState = some (tree, [[]]) ∧
      ∀ q, cnt tree q = enterCount evs [[]] q := by
  obtain ⟨tree, htree⟩ :=
    scanGo_total evs 0 (SchemaElement.mk "" "" 0 [] []) [[]] h (by simp) initStack_valid
  refine ⟨tree, htree, fun q => ?_⟩
  have hc := scanGo_cnt evs (SchemaElement.mk "" "" 0 [] []) [[]] tree [[]] htree q
  rw [hc, cnt_init q]
  exact Nat.zero_add _

/-- Concrete instantiation of C2's theorem on the well-nested sequence
`<a><b/></a>`. -/
theorem scan_occurrence_counts_witness :
    bal [Event.enter "a" "" "a" [], Event.enter "b" "" "b" [], Event.exit, Event.exit] 0
        = true ∧
    (∃ tree, scanGo [Event.enter "a" "" "a" [], Event.enter "b" "" "b" [],
          Event.exit, Event.exit] initState = some (tree, [[]]) ∧
      ∀ q, cnt tree q = enterCount [Event.enter "a" "" "a" [], Event.enter "b" "" "b" [],
          Event.exit, Event.exit] [[]] q) :=
  ⟨by decide, scan_occurrence_counts _ (by decide)⟩

/-- C1 (amended): for a well-nested event sequence the traversal stack
ends holding only the synthetic root; the scan fails fatally exactly
when the root has zero top-level children, and otherwise returns the
root's FIRST top-level child — several top-level children are tolerated
silently, the extra ones are simply not returned. -/
theorem scan_root_result (evs : List Event) (h : bal evs 0 = true) :
    ∃ tree, scanGo evs initState = some (tree, [[]]) ∧
      (tree.children = [] → scan evs = none) ∧
      ∀ tag c rest2, tree.children = (tag, c) :: rest2 → scan evs = some c := by
  obtain ⟨tree, htree⟩ :=
    scanGo_total evs 0 (SchemaElement.mk "" "" 0 [] []) [[]] h (by simp) initStack_valid
  have htree' : scanGo evs initState = some (tree, [[]]) := htree
  refine ⟨tree, htree, ?_, ?_⟩
  · intro hch
    simp [scan, htree', hch]
  · intro tag c rest2 hch
    simp [scan, htree', hch]

/-- Concrete instantiation of C1's amended theorem on `<a/>`. -/
theorem scan_root_result_witness :
    bal [Event.enter "a" "" "a" [], Event.exit] 0 = true ∧
    (∃ tree, scanGo [Event.enter "a" "" "a" [], Event.exit] initState
        = some (tree, [[]]) ∧
      (tree.children = [] → scan [Event.enter "a" "" "a" [], Event.exit] = none) ∧
      ∀ tag c rest2, tree.children = (tag, c) :: rest2 →
        scan [Event.enter "a" "" "a" [], Event.exit] = some c) :=
  ⟨by decide, scan_root_result _ (by decide)⟩

/-- Counterexample to C1 as stated: a well-nested sequence with TWO
top-level elements (`<a/><b/>`) does not fail fatally — the scan
completes and silently returns the first top-level child. -/
theorem scan_multiple_roots_not_fatal :
    bal [Event.enter "a" "" "a" [], Event.exit,
         Event.enter "b" "" "b" [], Event.exit] 0 = true ∧
    scanGo [Event.enter "a" "" "a" [], Event.exit,
         Event.enter "b" "" "b" [], Event.exit] initState =
      some (SchemaElement.mk "" "" 0
        [("a", SchemaElement.mk "" "a" 1 [] []),
         ("b", SchemaElement.mk "" "b" 1 [] [])] [], [[]]) ∧
    scan [Event.enter "a" "" "a" [], Event.exit,
         Event.enter "b" "" "b" [], Event.exit] =
      some (SchemaElement.mk "" "a" 1 [] []) :=
  ⟨by decide, rfl, rfl⟩

/-- The fold aborts exactly when some event is processed on an empty
stack, i.e. when the exits strictly outnumber the enters in some proper
prefix of the sequence. -/
theorem scanGo_none_iff :
    ∀ (evs : List Event) (tree : SchemaElement) (stk : List (List String)),
      (∀ q ∈ stk, (nodeAt tree q).isSome) →
      (scanGo evs (tree, stk) = none ↔
        ∃ k, k < evs.length ∧
          stk.length + countEnters (evs.take k) ≤ countExits (evs.take k)) := by
  intro evs
  induction evs with
  | nil =>
    intro tree stk _
    simp [scanGo]
  | cons ev evs ih =>
    intro tree stk hval
    cases stk with
    | nil =>
      constructor
      · intro _
        exact ⟨0, by simp, by simp [countEnters, countExits]⟩
      · intro _
        cases ev <;> simp [scanGo, scanStep]
    | cons cur rest =>
      cases ev with
      | enter t p st ats =>
        have hcur : (nodeAt tree cur).isSome := hval cur (by simp)
        cases ha : addChildAt tree cur t p st ats with
        | none =>
          have := addChildAt_isSome cur tree t p st ats hcur
          rw [ha] at this
          simp at this
        | some tree1 =>
          have hval1 : ∀ q ∈ (cur ++ [t]) :: cur :: rest, (nodeAt tree1 q).isSome := by
            intro q hq
            rcases List.mem_cons.1 hq with hq1 | hq2
            · subst hq1
              exact addChildAt_creates cur tree tree1 t p st ats ha
            · exact addChildAt_preserves cur tree tree1 t p st ats q ha (hval q hq2)
          have ihh := ih tree1 ((cur ++ [t]) :: cur :: rest) hval1
          constructor
          · intro hnone
            simp only [scanGo, scanStep, ha] at hnone
            obtain ⟨k, hk, hcount⟩ := ihh.1 hnone
            refine ⟨k + 1, by simpa using Nat.succ_lt_succ hk, ?_⟩
            simp only [List.take_succ_cons, countEnters, countExits]
            simp only [List.length_cons] at hcount ⊢
            omega
          · rintro ⟨k, hk, hcount⟩
            cases k with
            | zero =>
              simp only [List.take_zero, countEnters, countExits,
                List.length_cons] at hcount
              omega
            | succ k0 =>
              simp only [List.take_succ_cons, countEnters, countExits,
                List.length_cons] at hcount
              simp only [scanGo, scanStep, ha]
              refine ihh.2 ⟨k0, ?_, ?_⟩
              · simp only [List.length_cons] at hk
                omega
              · simp only [List.length_cons]
                omega
      | exit =>
        have hval1 : ∀ q ∈ rest, (nodeAt tree q).isSome := fun q hq =>
          hval q (List.mem_cons_of_mem cur hq)
        have ihh := ih tree rest hval1
        constructor
        · intro hnone
          simp only [scanGo, scanStep] at hnone
          obtain ⟨k, hk, hcount⟩ := ihh.1 hnone
          refine ⟨k + 1, by simpa using Nat.succ_lt_succ hk, ?_⟩
          simp only [List.take_succ_cons, countEnters, countExits,
            List.length_cons] at hcount ⊢
          omega
        · rintro ⟨k, hk, hcount⟩
          cases k with
          | zero =>
            simp only [List.take_zero, countEnters, countExits,
              List.length_cons] at hcount
            omega
          | succ k0 =>
            simp only [List.take_succ_cons, countEnters, countExits,
              List.length_cons] at hcount
            simp only [scanGo, scanStep]
            refine ihh.2 ⟨k0, ?_, ?_⟩
            · simp only [List.length_cons] at hk
              omega
            · omega

/-- C5 (amended): the scan aborts on an event sequence exactly when some
event is reached with the traversal stack empty — that is, when in some
proper prefix of the sequence the `exit` events strictly outnumber the
`enter` events.  A single trailing unmatched `exit` (which pops the
synthetic root as the last event) does NOT abort the fold. -/
theorem scan_abort_characterization (evs : List Event) :
    scanGo evs initState = none ↔
      ∃ k, k < evs.length ∧
        1 + countEnters (evs.take k) ≤ countExits (evs.take k) := by
  simpa using
    scanGo_none_iff evs (SchemaElement.mk "" "" 0 [] []) [[]] initStack_valid

/-- Counterexample to C5 as stated: `[enter a, exit, exit]` contains an
`exit` with no matching earlier `enter` (exits outnumber enters), yet
the scan does not abort — it completes and returns a tree. -/
theorem scan_unmatched_exit_not_fatal :
    scan [Event.enter "a" "" "a" [], Event.exit, Event.exit] =
      some (SchemaElement.mk "" "a" 1 [] []) ∧
    countExits [Event.enter "a" "" "a" [], Event.exit, Event.exit] =
      countEnters [Event.enter "a" "" "a" [], Event.exit, Event.exit] + 1 :=
  ⟨rfl, by decide⟩

/-! ### Attribute-count lemmas -/

theorem acnt_nil (e : SchemaElement) (a : String) :
    acnt e [] a = (alookup e.attrib a).getD 0 := rfl

theorem acnt_cons_some (e c : SchemaElement) (t : String) (r : List String)
    (a : String) (h : alookup e.children t = some c) :
    acnt e (t :: r) a = acnt c r a := by
  simp [acnt, nodeAt, h]

theorem acnt_cons_none (e : SchemaElement) (t : String) (r : List String)
    (a : String) (h : alookup e.children t = none) : acnt e (t :: r) a = 0 := by
  simp [acnt, nodeAt, h]

theorem acnt_cons_eq_of_alookup_eq (e e' : SchemaElement) (t : String)
    (r : List String) (a : String)
    (h : alookup e'.children t = alookup e.children t) :
    acnt e' (t :: r) a = acnt e (t :: r) a := by
  cases hl : alookup e.children t with
  | some c => rw [acnt_cons_some e' c t r a (h.trans hl), acnt_cons_some e c t r a hl]
  | none => rw [acnt_cons_none e' t r a (h.trans hl), acnt_cons_none e t r a hl]

theorem acnt_add_instance_cons (e : SchemaElement) (ats : List String) (x : String)
    (r : List String) (a : String) :
    acnt (e.add_instance ats) (x :: r) a = acnt e (x :: r) a := by
  cases h : alookup e.children x with
  | some c =>
    rw [acnt_cons_some (e.add_instance ats) c x r a (by rw [add_instance_children]; exact h),
        acnt_cons_some e c x r a h]
  | none =>
    rw [acnt_cons_none (e.add_instance ats) x r a (by rw [add_instance_children]; exact h),
        acnt_cons_none e x r a h]

theorem alookup_foldl_dincr_notmem (l : List String) (d : List (String × Nat))
    (a : String) (h : a ∉ l) : alookup (l.foldl dincr d) a = alookup d a := by
  induction l generalizing d with
  | nil => rfl
  | cons x r ih =>
    have hxa : x ≠ a := fun hh => h (hh ▸ List.mem_cons_self x r)
    have har : a ∉ r := fun hh => h (List.mem_cons_of_mem x hh)
    simp only [List.foldl_cons]
    rw [ih (dincr d x) har, dincr, alookup_aset_ne d x a _ hxa]

/-- The attribute fold of `add_instance`: with distinct attribute names,
each name present in the instance goes up by exactly one. -/
theorem alookup_foldl_dincr (l : List String) (d : List (String × Nat))
    (a : String) (h : l.Nodup) :
    (alookup (l.foldl dincr d) a).getD 0 =
      (alookup d a).getD 0 + (if a ∈ l then 1 else 0) := by
  induction l generalizing d with
  | nil => simp
  | cons x r ih =>
    obtain ⟨hx, hr⟩ := List.nodup_cons.1 h
    simp only [List.foldl_cons]
    by_cases ha : a = x
    · subst ha
      rw [alookup_foldl_dincr_notmem r (dincr d a) a hx]
      rw [dincr, alookup_aset_self]
      simp
    · rw [ih (dincr d x) hr]
      rw [dincr, alookup_aset_ne d x a _ (fun hh => ha hh.symm)]
      simp only [List.mem_cons, ha, false_or]

/-- Effect of one `add_child` at path `cur` on attribute counts: with
distinct attribute names, attribute `a` of the entered position goes up
by one exactly when the instance carries `a`. -/
theorem addChildAt_acnt :
    ∀ (cur : List String) (tree tree' : SchemaElement) (tag p st : String)
      (ats : List String), ats.Nodup →
      addChildAt tree cur tag p st ats = some tree' →
      ∀ q a, acnt tree' q a =
        acnt tree q a + (if cur ++ [tag] = q ∧ a ∈ ats then 1 else 0) := by
  intro cur
  induction cur with
  | nil =>
    intro tree tree' tag p st ats hnd h q a
    simp only [addChildAt, Option.some.injEq] at h
    subst h
    rw [add_child_parent]
    cases q with
    | nil => simp [acnt_nil]
    | cons t' r =>
      by_cases ht : tag = t'
      · subst ht
        rw [acnt_cons_some _ ((tree.add_child tag p st ats).2) tag r a
              (by simp [alookup_aset_self])]
        cases hc : alookup tree.children tag with
        | some c =>
          rw [add_child_child_of_some tree tag p st ats c hc]
          rw [acnt_cons_some tree c tag r a hc]
          cases r with
          | nil =>
            simp only [acnt_nil, add_instance_attrib]
            rw [alookup_foldl_dincr ats c.attrib a hnd]
            simp
          | cons x r2 => simp [acnt_add_instance_cons]
        | none =>
          rw [add_child_child_of_none tree tag p st ats hc]
          rw [acnt_cons_none tree tag r a hc]
          cases r with
          | nil =>
            simp only [acnt_nil, add_instance_attrib, attrib_mk]
            rw [alookup_foldl_dincr ats [] a hnd]
            simp [alookup]
          | cons x r2 =>
            rw [acnt_cons_none _ x r2 a (by simp [alookup])]
            simp
      · rw [acnt_cons_eq_of_alookup_eq _ _ t' r a
              (by simp only [children_mk]; exact alookup_aset_ne _ _ _ _ ht)]
        have : ¬ ([tag] = t' :: r) := by simp [ht]
        simp [this]
  | cons seg path ih =>
    intro tree tree' tag p st ats hnd h q a
    cases hc : alookup tree.children seg with
    | none =>
      simp only [addChildAt, hc] at h
      exact Option.noConfusion h
    | some c =>
      cases hr : addChildAt c path tag p st ats with
      | none =>
        simp only [addChildAt, hc, hr] at h
        exact Option.noConfusion h
      | some c' =>
        simp only [addChildAt, hc, hr, Option.some.injEq] at h
        subst h
        cases q with
        | nil => simp [acnt_nil]
        | cons t' r =>
          by_cases ht : seg = t'
          · subst ht
            rw [acnt_cons_some _ c' seg r a (by simp [alookup_aset_self])]
            rw [acnt_cons_some tree c seg r a hc]
            rw [ih c c' tag p st ats hnd hr r a]
            simp
          · rw [acnt_cons_eq_of_alookup_eq _ _ t' r a
                  (by simp only [children_mk]; exact alookup_aset_ne _ _ _ _ ht)]
            have : ¬ (seg :: path ++ [tag] = t' :: r) := by simp [ht]
            simp only [this, false_and, if_false]
            simp

/-- The whole event fold for attribute counts. -/
theorem scanGo_acnt :
    ∀ (evs : List Event) (tree : SchemaElement) (stk : List (List String))
      (tree' : SchemaElement) (stk' : List (List String)),
      (∀ t p s ats, Event.enter t p s ats ∈ evs → ats.Nodup) →
      scanGo evs (tree, stk) = some (tree', stk') →
      ∀ q a, acnt tree' q a = acnt tree q a + attrEnterCount evs stk q a := by
  intro evs
  induction evs with
  | nil =>
    intro tree stk tree' stk' _ h q a
    simp only [scanGo, Option.some.injEq, Prod.mk.injEq] at h
    rw [← h.1]
    simp [attrEnterCount]
  | cons ev evs ih =>
    intro tree stk tree' stk' hnd h q a
    cases stk with
    | nil =>
      cases ev <;> simp [scanGo, scanStep] at h
    | cons cur rest =>
      have hnd' : ∀ t p s ats, Event.enter t p s ats ∈ evs → ats.Nodup :=
        fun t p s ats hm => hnd t p s ats (List.mem_cons_of_mem ev hm)
      cases ev with
      | enter t p st ats =>
        cases ha : addChildAt tree cur t p st ats with
        | none =>
          simp only [scanGo, scanStep, ha] at h
          exact Option.noConfusion h
        | some tree1 =>
          simp only [scanGo, scanStep, ha] at h
          have h1 := ih tree1 ((cur ++ [t]) :: cur :: rest) tree' stk' hnd' h q a
          have h2 := addChildAt_acnt cur tree tree1 t p st ats
            (hnd t p st ats (List.mem_cons_self _ _)) ha q a
          rw [h1, h2]
          simp only [attrEnterCount]
          omega
      | exit =>
        simp only [scanGo, scanStep] at h
        have h1 := ih tree rest tree' stk' hnd' h q a
        rw [h1]
        simp [attrEnterCount]

/-- Attribute ground truth never exceeds occurrence ground truth. -/
theorem attrEnterCount_le_enterCount :
    ∀ (evs : List Event) (stk : List (List String)) (p : List String) (a : String),
      attrEnterCount evs stk p a ≤ enterCount evs stk p := by
  intro evs
  induction evs with
  | nil => intro stk p a; simp [attrEnterCount, enterCount]
  | cons ev evs ih =>
    intro stk p a
    cases stk with
    | nil => cases ev <;> simp [attrEnterCount, enterCount]
    | cons cur rest =>
      cases ev with
      | enter t pf s ats =>
        simp only [attrEnterCount, enterCount]
        have h1 := ih ((cur ++ [t]) :: cur :: rest) p a
        have hle : (if cur ++ [t] = p ∧ a ∈ ats then 1 else 0) ≤
            (if cur ++ [t] = p then 1 else 0) := by
          by_cases hc : cur ++ [t] = p
          · by_cases hm : a ∈ ats <;> simp [hc, hm]
          · simp [hc]
        omega
      | exit =>
        simp only [attrEnterCount, enterCount]
        exact ih rest p a

theorem acnt_init (q : List String) (a : String) :
    acnt (SchemaElement.mk "" "" 0 [] []) q a = 0 := by
  cases q with
  | nil => rfl
  | cons t r => exact acnt_cons_none _ t r a rfl

/-- C3: for a well-nested event sequence whose instances carry distinct
attribute names, every node's count for attribute `a` equals the number
of instances at that tree position that carried `a`, and never exceeds
the node's occurrence count. -/
theorem scan_attribute_counts (evs : List Event) (h : bal evs 0 = true)
    (hnd : ∀ t p s ats, Event.enter t p s ats ∈ evs → ats.Nodup) :
    ∃ tree, scanGo evs initState = some (tree, [[]]) ∧
      ∀ q a, acnt tree q a = attrEnterCount evs [[]] q a ∧
        acnt tree q a ≤ cnt tree q := by
  obtain ⟨tree, htree⟩ :=
    scanGo_total evs 0 (SchemaElement.mk "" "" 0 [] []) [[]] h (by simp) initStack_valid
  refine ⟨tree, htree, fun q a => ?_⟩
  have ha := scanGo_acnt evs (SchemaElement.mk "" "" 0 [] []) [[]] tree [[]] hnd htree q a
  have hc := scanGo_cnt evs (SchemaElement.mk "" "" 0 [] []) [[]] tree [[]] htree q
  rw [ha, acnt_init q a, Nat.zero_add]
  refine ⟨rfl, ?_⟩
  rw [hc, cnt_init q, Nat.zero_add]
  exact attrEnterCount_le_enterCount evs [[]] q a

/-- Concrete instantiation of C3's theorem on `<a x=1><b/></a>`. -/
theorem scan_attribute_counts_witness :
    bal [Event.enter "a" "" "a" ["x"], Event.enter "b" "" "b" [],
        Event.exit, Event.exit] 0 = true ∧
    (∃ tree, scanGo [Event.enter "a" "" "a" ["x"], Event.enter "b" "" "b" [],
          Event.exit, Event.exit] initState = some (tree, [[]]) ∧
      ∀ q a, acnt tree q a = attrEnterCount [Event.enter "a" "" "a" ["x"],
          Event.enter "b" "" "b" [], Event.exit, Event.exit] [[]] q a ∧
        acnt tree q a ≤ cnt tree q) := by
  refine ⟨by decide, scan_attribute_counts _ (by decide) ?_⟩
  intro t p s ats hm
  simp only [List.mem_cons, List.not_mem_nil, or_false] at hm
  rcases hm with h1 | h2 | h3 | h4
  · injection h1 with e1 e2 e3 e4
    subst e4
    decide
  · injection h2 with e1 e2 e3 e4
    subst e4
    decide
  · exact Event.noConfusion h3
  · exact Event.noConfusion h4

/-! ### Tag identity resolution (C8) -/

/-- C8 (amended): when the declared prefix resolves in the namespace
map, tag identity resolution behaves as claimed — a successful result
returns the prefix unchanged together with the short name obtained by
removing the `{namespace-uri}` qualifier (so `tag = "{uri}" ++ short`),
and the resolution fails fast (the assert aborts the scan) whenever the
tag does not begin with the resolved qualifier.  When the prefix is
absent from the map (the `KeyError` branch) the qualifier is treated as
empty and no check occurs; see the counterexample. -/
theorem resolveTag_resolved (tag pfxName uri : String)
    (nsmap : List (String × String)) (h : alookup nsmap pfxName = some uri) :
    (∀ p s, resolveTag tag pfxName nsmap = some (p, s) →
        p = pfxName ∧ tag = "\x7b" ++ uri ++ "\x7d" ++ s) ∧
    (strStartsWith tag ("\x7b" ++ uri ++ "\x7d") = false →
        resolveTag tag pfxName nsmap = none) := by
  constructor
  · intro p s hres
    simp only [resolveTag, h] at hres
    by_cases hsw : strStartsWith tag ("\x7b" ++ uri ++ "\x7d") = true
    · rw [if_pos hsw] at hres
      simp only [Option.some.injEq, Prod.mk.injEq] at hres
      obtain ⟨hp, hs⟩ := hres
      refine ⟨hp.symm, ?_⟩
      have hpre : ("\x7b" ++ uri ++ "\x7d").toList <+: tag.toList :=
        List.isPrefixOf_iff_prefix.1 hsw
      obtain ⟨t, ht⟩ := hpre
      have hdata : tag.data = ("\x7b" ++ uri ++ "\x7d").data ++ t := ht.symm
      have hdrop : strDrop tag ("\x7b" ++ uri ++ "\x7d").length = String.mk t := by
        simp only [strDrop]
        have : tag.toList = ("\x7b" ++ uri ++ "\x7d").data ++ t := hdata
        rw [this]
        have hlen : ("\x7b" ++ uri ++ "\x7d").length = ("\x7b" ++ uri ++ "\x7d").data.length := rfl
        rw [hlen, List.drop_left]
      rw [← hs, hdrop]
      apply String.ext
      rw [hdata]
      rfl
    · rw [if_neg hsw] at hres
      exact Option.noConfusion hres
  · intro hsw
    simp only [resolveTag, h]
    rw [if_neg]
    simp [hsw]

/-- Concrete instantiation of C8's amended theorem: with `p → u` in the
namespace map, resolving `{u}a` yields short name `a` and the tag is the
qualifier plus the short name. -/
theorem resolveTag_resolved_witness :
    alookup [("p", "u")] "p" = some "u" ∧
    resolveTag "{u}a" "p" [("p", "u")] = some ("p", "a") ∧
    ("p" = "p" ∧ "{u}a" = "\x7b" ++ "u" ++ "\x7d" ++ "a") :=
  ⟨rfl, rfl, (resolveTag_resolved "{u}a" "p" "u" [("p", "u")] rfl).1 "p" "a" rfl⟩

/-- Counterexample to C8 as stated: with a qualified tag whose declared
prefix is missing from the namespace map (the `KeyError` branch sets the
qualifier to the empty string), the resolution succeeds silently and the
short name KEEPS its `{namespace-uri}` qualifier instead of having it
removed — the mismatch is not detected. -/
theorem resolveTag_keyerror_keeps_qualifier :
    resolveTag "{u}a" "p" [] = some ("p", "{u}a") ∧ ("{u}a" : String) ≠ "a" :=
  ⟨rfl, by decide⟩

/-! ### Rendering lemmas (C6, C7) -/

theorem string_empty_append (s : String) : "" ++ s = s := rfl

theorem string_append_empty (s : String) : s ++ "" = s := by
  apply String.ext
  simp [String.data_append]

theorem sconcat_append (l1 l2 : List String) :
    sconcat (l1 ++ l2) = sconcat l1 ++ sconcat l2 := by
  induction l1 with
  | nil => rfl
  | cons x r ih => simp [sconcat, ih, String.append_assoc]

theorem alookup_map_val {β γ : Type} (l : List (String × β)) (g : β → γ)
    (k : String) :
    alookup (l.map fun y => (y.1, g y.2)) k = (alookup l k).map g := by
  induction l with
  | nil => rfl
  | cons y r ih =>
    obtain ⟨ky, vy⟩ := y
    by_cases h : ky = k <;> simp [alookup, h, ih]

theorem alookup_some_mem {α : Type} (l : List (String × α)) (k : String) (v : α)
    (h : alookup l k = some v) : (k, v) ∈ l := by
  induction l with
  | nil => simp [alookup] at h
  | cons y r ih =>
    obtain ⟨ky, vy⟩ := y
    by_cases hk : ky = k
    · subst hk
      simp [alookup] at h
      subst h
      exact List.mem_cons_self _ _
    · simp only [alookup, hk, if_false] at h
      exact List.mem_cons_of_mem _ (ih h)

theorem mem_children_sizeOf (p s : String) (c : Nat)
    (ch : List (String × SchemaElement)) (ats : List (String × Nat))
    (k : String) (v : SchemaElement) (h : (k, v) ∈ ch) :
    sizeOf v < sizeOf (SchemaElement.mk p s c ch ats) := by
  have h1 := List.sizeOf_lt_of_mem h
  simp only [Prod.mk.sizeOf_spec] at h1
  simp only [SchemaElement.mk.sizeOf_spec]
  omega

theorem alookup_attach_map {β : Type} (l : List (String × SchemaElement))
    (g : SchemaElement → β) (k : String) :
    alookup (l.attach.map fun x => (x.1.1, g x.1.2)) k = (alookup l k).map g := by
  rw [show (l.attach.map fun x => (x.1.1, g x.1.2)) = l.map (fun y => (y.1, g y.2))
        from List.attach_map_coe l (fun y => (y.1, g y.2))]
  exact alookup_map_val l g k

theorem sconcat_flatMap_newline (keys : List String) (f g : String → List String)
    (h : ∀ k ∈ keys, sconcat (f k) = sconcat ((g k).map (fun l => l ++ "\n"))) :
    sconcat (keys.flatMap f) =
      sconcat ((keys.flatMap g).map (fun l => l ++ "\n")) := by
  induction keys with
  | nil => rfl
  | cons k r ih =>
    simp only [List.flatMap_cons, List.map_append, sconcat_append]
    rw [h k (List.mem_cons_self _ _), ih (fun k2 hk2 => h k2 (List.mem_cons_of_mem _ hk2))]

/-- The overview fragment stream of a node equals the newline-terminated
overview lines of that node, depth-first. -/
theorem pieces_overview :
    ∀ (n : Nat) (e : SchemaElement), sizeOf e ≤ n → ∀ d,
      sconcat (pieces false e (2 * d)) =
        sconcat ((overviewLines e d).map (fun l => l ++ "\n")) := by
  intro n
  induction n with
  | zero =>
    intro e he
    cases e with
    | mk p s c ch ats =>
      simp only [SchemaElement.mk.sizeOf_spec] at he
      omega
  | succ n ih =>
    intro e he d
    cases e with
    | mk p s c ch ats =>
      have hch :
          sconcat ((sortedKeys ch).flatMap fun k =>
            (alookup (ch.attach.map fun x =>
              (x.1.1, pieces false x.1.2 (2 * d + 2))) k).getD []) =
          sconcat (((sortedKeys ch).flatMap fun k =>
            (alookup (ch.attach.map fun x =>
              (x.1.1, overviewLines x.1.2 (d + 1))) k).getD []).map
                (fun l => l ++ "\n")) := by
        apply sconcat_flatMap_newline
        intro k _
        rw [alookup_attach_map ch (fun y => pieces false y (2 * d + 2)) k,
            alookup_attach_map ch (fun y => overviewLines y (d + 1)) k]
        cases hc : alookup ch k with
        | none => rfl
        | some child =>
          show sconcat (pieces false child (2 * d + 2)) =
            sconcat ((overviewLines child (d + 1)).map (fun l => l ++ "\n"))
          have hsz : sizeOf child ≤ n := by
            have := mem_children_sizeOf p s c ch ats k child (alookup_some_mem ch k child hc)
            simp only [SchemaElement.mk.sizeOf_spec] at this he ⊢
            omega
          have h2 : 2 * d + 2 = 2 * (d + 1) := by omega
          rw [h2]
          exact ih child hsz (d + 1)
      by_cases hp : p = "" <;>
        simp [pieces, overviewLines, overviewLine, hp, sconcat, sconcat_append, hch,
          String.append_assoc, string_append_empty, string_empty_append,
          show (":\n" : String) = ":" ++ "\n" from rfl,
          show ∀ x : String, "\x7d" ++ (":\n" ++ x) = "\x7d:\n" ++ x from fun x => by
            rw [← String.append_assoc]
            rfl]

/-- C6: the overview rendering is depth-first with children in
lexicographic order of their full tag, and emits exactly one line per
node — `2*depth` spaces, then (when the prefix is non-empty) the prefix
and `:`, the short name, `{`, the decimal count, `}` and a trailing
`:`. -/
theorem overview_rendering (e : SchemaElement) :
    pformat false e = sconcat ((overviewLines e 0).map (fun l => l ++ "\n")) := by
  have h := pieces_overview (sizeOf e) e (le_refl _) 0
  simpa [pformat] using h

theorem wfB_destruct (p s : String) (c : Nat) (ch : List (String × SchemaElement))
    (ats : List (String × Nat)) (h : wfB (SchemaElement.mk p s c ch ats) = true) :
    (ats.map Prod.fst).Nodup ∧ (ch.map Prod.fst).Nodup ∧
      ∀ k v, (k, v) ∈ ch → wfB v = true := by
  simp only [wfB, Bool.and_eq_true, decide_eq_true_eq, List.all_eq_true] at h
  obtain ⟨⟨h1, h2⟩, h3⟩ := h
  exact ⟨h1, h2, fun k v hm => h3 ⟨(k, v), hm⟩ (List.mem_attach _ _)⟩

/-- Looking a key up in a dictionary with distinct keys is invariant
under permutation of the bindings. -/
theorem alookup_perm {α : Type} {l1 l2 : List (String × α)} (hp : l1.Perm l2) :
    ∀ (k : String), (l1.map Prod.fst).Nodup → alookup l1 k = alookup l2 k := by
  induction hp with
  | nil => intro k _; rfl
  | cons x hperm ih =>
    intro k hnd
    obtain ⟨kx, vx⟩ := x
    simp only [List.map_cons, List.nodup_cons] at hnd
    simp only [alookup]
    by_cases h : kx = k
    · simp [h]
    · simp only [h, if_false]
      exact ih k hnd.2
  | swap x y l =>
    intro k hnd
    obtain ⟨kx, vx⟩ := x
    obtain ⟨ky, vy⟩ := y
    simp only [List.map_cons, List.nodup_cons, List.mem_cons] at hnd
    obtain ⟨hy, hx, _⟩ := hnd
    push_neg at hy
    simp only [alookup]
    by_cases h1 : ky = k
    · subst h1
      have hne : ¬ (kx = ky) := fun hh => hy.1 hh.symm
      simp [hne]
    · by_cases h2 : kx = k <;> simp [h1, h2]
  | trans h1 h2 ih1 ih2 =>
    intro k hnd
    have hnd2 := (h1.map Prod.fst).nodup_iff.mp hnd
    exact (ih1 k hnd).trans (ih2 k hnd2)

/-- Sorting is determined by the multiset of elements. -/
theorem insertionSort_eq_of_perm (m1 m2 : List String) (h : m1.Perm m2) :
    List.insertionSort (fun a b => a ≤ b) m1 =
      List.insertionSort (fun a b => a ≤ b) m2 := by
  exact @List.eq_of_perm_of_sorted String (fun a b => a ≤ b)
    ⟨fun a b hab hba => le_antisymm hab hba⟩ _ _
    ((List.perm_insertionSort _ m1).trans (h.trans (List.perm_insertionSort _ m2).symm))
    (List.sorted_insertionSort _ m1) (List.sorted_insertionSort _ m2)

/-- Rendering does not distinguish a well-formed tree from its canonical
form: the fragment stream only reads the dictionaries through sorted
keys and key lookups. -/
theorem pieces_canon :
    ∀ (n : Nat) (e : SchemaElement), sizeOf e ≤ n → wfB e = true →
      ∀ ab i, pieces ab (canon e) i = pieces ab e i := by
  intro n
  induction n with
  | zero =>
    intro e he
    cases e with
    | mk p s c ch ats =>
      simp only [SchemaElement.mk.sizeOf_spec] at he
      omega
  | succ n ih =>
    intro e he hwf ab i
    cases e with
    | mk p s c ch ats =>
      obtain ⟨hndA, hndC, hrec⟩ := wfB_destruct p s c ch ats hwf
      have hmap : (ch.attach.map fun x => (x.1.1, canon x.1.2)) =
          ch.map (fun y => (y.1, canon y.2)) :=
        List.attach_map_coe ch (fun y => (y.1, canon y.2))
      have hcanon : canon (SchemaElement.mk p s c ch ats) =
          SchemaElement.mk p s c
            (List.insertionSort (fun a b => a.1 ≤ b.1) (ch.map fun y => (y.1, canon y.2)))
            (List.insertionSort (fun a b => a.1 ≤ b.1) ats) := by
        simp only [canon, hmap]
      rw [hcanon]
      have hpermC : (List.insertionSort (fun a b => a.1 ≤ b.1)
          (ch.map fun y => (y.1, canon y.2))).Perm (ch.map fun y => (y.1, canon y.2)) :=
        List.perm_insertionSort _ _
      have hkeys2 : (ch.map fun y => (y.1, canon y.2)).map Prod.fst = ch.map Prod.fst := by
        rw [List.map_map]
        rfl
      have hkeysC : ((List.insertionSort (fun a b => a.1 ≤ b.1)
          (ch.map fun y => (y.1, canon y.2))).map Prod.fst).Perm (ch.map Prod.fst) := by
        have h1 := hpermC.map Prod.fst
        rw [hkeys2] at h1
        exact h1
      have hndCkeys : ((List.insertionSort (fun a b => a.1 ≤ b.1)
          (ch.map fun y => (y.1, canon y.2))).map Prod.fst).Nodup :=
        hkeysC.nodup_iff.mpr hndC
      have hlookC : ∀ k, alookup (List.insertionSort (fun a b => a.1 ≤ b.1)
          (ch.map fun y => (y.1, canon y.2))) k = (alookup ch k).map canon := by
        intro k
        rw [alookup_perm hpermC k hndCkeys, alookup_map_val]
      have hsortC : sortedKeys (List.insertionSort (fun a b => a.1 ≤ b.1)
          (ch.map fun y => (y.1, canon y.2))) = sortedKeys ch := by
        simp only [sortedKeys]
        exact insertionSort_eq_of_perm _ _ hkeysC
      have hpermA : (List.insertionSort (fun a b => (a : String × Nat).1 ≤ b.1) ats).Perm ats :=
        List.perm_insertionSort _ _
      have hkeysA : ((List.insertionSort (fun a b => (a : String × Nat).1 ≤ b.1) ats).map
          Prod.fst).Perm (ats.map Prod.fst) := hpermA.map _
      have hndAkeys : ((List.insertionSort (fun a b => (a : String × Nat).1 ≤ b.1) ats).map
          Prod.fst).Nodup := hkeysA.nodup_iff.mpr hndA
      have hlookA : ∀ a, alookup (List.insertionSort (fun a b => (a : String × Nat).1 ≤ b.1) ats) a =
          alookup ats a := fun a => alookup_perm hpermA a hndAkeys
      have hsortA : sortedKeys (List.insertionSort (fun a b => (a : String × Nat).1 ≤ b.1) ats) =
          sortedKeys ats := by
        simp only [sortedKeys]
        exact insertionSort_eq_of_perm _ _ hkeysA
      have hempty : (List.insertionSort (fun a b => (a : String × Nat).1 ≤ b.1) ats).isEmpty =
          ats.isEmpty := by
        cases hA : ats with
        | nil => rfl
        | cons y r =>
          have hlen := hpermA.length_eq
          rw [hA] at hlen
          cases hI : List.insertionSort (fun a b => (a : String × Nat).1 ≤ b.1) (y :: r) with
          | nil =>
            rw [hI] at hlen
            simp at hlen
          | cons z w => rfl
      have hchildF : (fun k => (alookup ((List.insertionSort (fun a b => a.1 ≤ b.1)
              (ch.map fun y => (y.1, canon y.2))).attach.map
            (fun x => (x.1.1, pieces ab x.1.2 (i + 2)))) k).getD []) =
          (fun k => (alookup (ch.attach.map
            (fun x => (x.1.1, pieces ab x.1.2 (i + 2)))) k).getD []) :=
        funext fun k => by
          rw [alookup_attach_map _ (fun y => pieces ab y (i + 2)) k,
              alookup_attach_map ch (fun y => pieces ab y (i + 2)) k,
              hlookC k]
          cases hc : alookup ch k with
          | none => rfl
          | some child =>
            show pieces ab (canon child) (i + 2) = pieces ab child (i + 2)
            have hm := alookup_some_mem ch k child hc
            have hsz : sizeOf child ≤ n := by
              have := mem_children_sizeOf p s c ch ats k child hm
              simp only [SchemaElement.mk.sizeOf_spec] at this he
              omega
            exact ih child hsz (hrec k child hm) ab (i + 2)
      simp only [pieces]
      rw [hsortC, hsortA, hempty, hchildF]
      simp only [hlookA]

theorem attach_all_eq (l : List (String × SchemaElement))
    (f : String × SchemaElement → Bool) :
    (l.attach.all fun x => f x.1) = l.all f := by
  have h1 : (l.attach.all fun x => f x.1) = true ↔ l.all f = true := by
    simp only [List.all_eq_true]
    constructor
    · intro hall y hy
      exact hall ⟨y, hy⟩ (List.mem_attach _ _)
    · intro hall x _
      exact hall x.1 x.2
  cases hb : l.all f with
  | true => exact h1.mpr hb
  | false =>
    cases ha : l.attach.all fun x => f x.1 with
    | false => rfl
    | true =>
      rw [hb] at h1
      exact absurd (h1.mp ha) (by simp)

theorem wfB_mk (p s : String) (c : Nat) (ch : List (String × SchemaElement))
    (ats : List (String × Nat)) :
    wfB (SchemaElement.mk p s c ch ats) =
      (decide ((ats.map Prod.fst).Nodup) && decide ((ch.map Prod.fst).Nodup) &&
        ch.all (fun y => wfB y.2)) := by
  have hall := attach_all_eq ch (fun y => wfB y.2)
  simp only [wfB, hall]

theorem canon_mk (p s : String) (c : Nat) (ch : List (String × SchemaElement))
    (ats : List (String × Nat)) :
    canon (SchemaElement.mk p s c ch ats) =
      SchemaElement.mk p s c
        (List.insertionSort (fun a b => a.1 ≤ b.1) (ch.map fun y => (y.1, canon y.2)))
        (List.insertionSort (fun a b => a.1 ≤ b.1) ats) := by
  have hmap : (ch.attach.map fun x => (x.1.1, canon x.1.2)) =
      ch.map (fun y => (y.1, canon y.2)) :=
    List.attach_map_coe ch (fun y => (y.1, canon y.2))
  simp only [canon, hmap]

/-- C7: rendering is a pure function of the tree viewed as nested
dictionaries — two well-formed trees with the same canonical form (same
maps, regardless of the order in which tags and attributes were
inserted while scanning) render byte-identically in both modes. -/
theorem pformat_deterministic (e1 e2 : SchemaElement) (h1 : wfB e1 = true)
    (h2 : wfB e2 = true) (h : canon e1 = canon e2) :
    pformat false e1 = pformat false e2 ∧ pformat true e1 = pformat true e2 := by
  have k1 := pieces_canon (sizeOf e1) e1 (le_refl _) h1
  have k2 := pieces_canon (sizeOf e2) e2 (le_refl _) h2
  constructor
  · simp only [pformat]
    rw [← k1 false 0, ← k2 false 0, h]
  · simp only [pformat]
    rw [← k1 true 0, ← k2 true 0, h]

/-- Concrete instantiation of C7's theorem: two trees whose attribute
dictionaries were filled in opposite orders render byte-identically. -/
theorem pformat_deterministic_witness :
    wfB (SchemaElement.mk "" "r" 2 [] [("y", 1), ("x", 2)]) = true ∧
    wfB (SchemaElement.mk "" "r" 2 [] [("x", 2), ("y", 1)]) = true ∧
    canon (SchemaElement.mk "" "r" 2 [] [("y", 1), ("x", 2)]) =
      canon (SchemaElement.mk "" "r" 2 [] [("x", 2), ("y", 1)]) ∧
    (pformat false (SchemaElement.mk "" "r" 2 [] [("y", 1), ("x", 2)]) =
        pformat false (SchemaElement.mk "" "r" 2 [] [("x", 2), ("y", 1)]) ∧
      pformat true (SchemaElement.mk "" "r" 2 [] [("y", 1), ("x", 2)]) =
        pformat true (SchemaElement.mk "" "r" 2 [] [("x", 2), ("y", 1)])) := by
  have h1 : wfB (SchemaElement.mk "" "r" 2 [] [("y", 1), ("x", 2)]) = true := by
    rw [wfB_mk]
    rfl
  have h2 : wfB (SchemaElement.mk "" "r" 2 [] [("x", 2), ("y", 1)]) = true := by
    rw [wfB_mk]
    rfl
  have hyx : ¬ ("y" : String) ≤ "x" := by
    rw [String.le_iff_toList_le]
    decide
  have hxy : ("x" : String) ≤ "y" := by
    rw [String.le_iff_toList_le]
    decide
  have hsort1 : List.insertionSort (fun a b => (a : String × Nat).1 ≤ b.1)
      [("y", 1), ("x", 2)] = [("x", 2), ("y", 1)] := by
    show (if ("y" : String) ≤ "x"
        then ("y", (1 : Nat)) :: [("x", 2)]
        else ("x", 2) :: List.orderedInsert (fun a b => a.1 ≤ b.1) ("y", 1) []) =
      [("x", 2), ("y", 1)]
    rw [if_neg hyx]
    rfl
  have hsort2 : List.insertionSort (fun a b => (a : String × Nat).1 ≤ b.1)
      [("x", 2), ("y", 1)] = [("x", 2), ("y", 1)] := by
    show (if ("x" : String) ≤ "y"
        then ("x", (2 : Nat)) :: [("y", 1)]
        else ("y", 1) :: List.orderedInsert (fun a b => a.1 ≤ b.1) ("x", 2) []) =
      [("x", 2), ("y", 1)]
    rw [if_pos hxy]
  have h3 : canon (SchemaElement.mk "" "r" 2 [] [("y", 1), ("x", 2)]) =
      canon (SchemaElement.mk "" "r" 2 [] [("x", 2), ("y", 1)]) := by
    rw [canon_mk, canon_mk, hsort1, hsort2]
  exact ⟨h1, h2, h3, pformat_deterministic _ _ h1 h2 h3⟩

end XmlVisi
